import Mathlib

/-!
Verification development for the `salone` crossword move generator.

The Rust sources are embedded shallowly:
  * `src/dag.rs`    — the GADDAG word graph (`Kind`, `Arc`, `Node`, `Graph`);
  * `src/solver.rs` — the solver state, anchor search, and the recursive
    move-generation walk (`Solver`, `MoveGenerator`).

Hash sets and hash maps are modelled as lists (only membership, insertion
and removal are used by the source, so the representation is observationally
faithful); mutation is modelled by explicit state passing.  Loops whose
termination is not structural (the `while` loops of `get_left_most_anchor`
and the mutually recursive `generate`/`go_on` walk) are given an explicit
fuel argument and return `Option` results: `none` models divergence or a
runtime panic, `some` models normal return.  All definitions are
executable so that concrete runs can be settled by `decide`/`rfl`.
-/

/-- Symbols labelling GADDAG arcs: a letter or the delimiter
(`enum Kind` in `src/dag.rs`). -/
inductive Kind where
  | char : Char → Kind
  | delim : Kind
deriving DecidableEq, Repr

/-- A GADDAG arc: its letter set and the outgoing arc map of its target
node (`struct Arc`/`struct Node` of `src/dag.rs`; the `Node` wrapper holds
only the arc map, so the two Rust structs are merged into one inductive,
with `HashMap<Kind, Arc>` modelled as an association list). -/
inductive Arc where
  | mk : List Char → List (Kind × Arc) → Arc
deriving Repr

/-- An arc map of a node (the field `arcs: HashMap<Kind, Arc>`). -/
abbrev Node := List (Kind × Arc)

/-- Projection: the `letter_set` field of an arc. -/
def Arc.letter_set : Arc → List Char
  | .mk ls _ => ls

/-- Projection: the arc map of the node the arc points to
(the `next` field). -/
def Arc.next : Arc → Node
  | .mk _ n => n

/-- The fresh arc `Arc::new()`: empty letter set, empty node. -/
def Arc.new : Arc := Arc.mk [] []

/-- `HashMap::get` on the arc map of a node. -/
def lookupArc : Node → Kind → Option Arc
  | [], _ => none
  | (k0, a) :: rest, k => if k0 = k then some a else lookupArc rest k

/-- Replacement of the arc stored under an existing key
(the effect of `HashMap::get_mut` followed by in-place mutation). -/
def setArc : Node → Kind → Arc → Node
  | [], _, _ => []
  | (k0, a0) :: rest, k, a => if k0 = k then (k, a) :: rest else (k0, a0) :: setArc rest k a

/-- `HashSet::insert` on a letter set. -/
def insertChar (c : Char) (l : List Char) : List Char :=
  if c ∈ l then l else l ++ [c]

/-- `Node::add_word` of `src/dag.rs`, with `Arc::add_word` inlined.
`Node::add_word` pops the next symbol `k`, inserts a fresh arc when absent,
and calls `Arc::add_word(k, rest)` on the stored arc; `Arc::add_word`
matches `(kind, words.peek())`: in the case `(Char ch, None)` it inserts
`ch` into the arc's letter set, in every other case it recurses into
`next.add_word(words)`.  The source `unwrap`s (panics) on an empty symbol
list, a case `Graph::add_word` never produces; the model returns the node
unchanged there. -/
def Node.add_word : Node → List Kind → Node
  | n, [] => n
  | n, k :: ws =>
    let a := (lookupArc n k).getD Arc.new
    let a2 : Arc :=
      match k, ws with
      | Kind.char c, [] => Arc.mk (insertChar c a.letter_set) a.next
      | _, _ => Arc.mk a.letter_set (Node.add_word a.next ws)
    match lookupArc n k with
    | none => n ++ [(k, a2)]
    | some _ => setArc n k a2

/-- The word graph (`struct Graph` of `src/dag.rs`). -/
structure Graph where
  init : Arc

/-- `Graph::new`: a fresh initial arc with a fresh node. -/
def Graph.new : Graph := { init := Arc.new }

/-- The symbol sequence inserted for split point `i` of `word`
(the body of the loop of `Graph::add_word`): the first `i` letters
reversed, then `Delim` when a non-empty tail remains, then the tail.
The source splits at byte index `i`; words are lists of (ASCII) letters
here, so `take`/`drop` coincide with `split_at`. -/
def gaddagSeq (w : List Char) (i : Nat) : List Kind :=
  ((w.take i).reverse.map Kind.char) ++
    (if w.drop i = [] then [] else Kind.delim :: (w.drop i).map Kind.char)

/-- `Graph::add_word` of `src/dag.rs`: for `i` in `1..=word.len()` insert
the rotated sequence `gaddagSeq word i` into the root node `init.next`,
sequentially (the fold over the mapped list is the source's `for` loop). -/
def Graph.add_word (g : Graph) (w : List Char) : Graph :=
  { init := Arc.mk g.init.letter_set
      (((List.range w.length).map (fun j => gaddagSeq w (j + 1))).foldl
        Node.add_word g.init.next) }

/-- Follow a non-empty label sequence from a node, returning the final
arc when every label is present. -/
def followPath : Node → List Kind → Option Arc
  | _, [] => none
  | n, [k] => lookupArc n k
  | n, k :: k2 :: ks =>
    match lookupArc n k with
    | none => none
    | some a => followPath a.next (k2 :: ks)

/-! ## The solver state (`src/solver.rs`) -/

/-- A rack letter: a blank or a concrete character
(`enum RackLetter`). -/
inductive RackLetter where
  | blank : RackLetter
  | char : Char → RackLetter
deriving DecidableEq, Repr

/-- A letter placed on a board tile: a realised blank or a concrete
character (`enum TileLetter`). -/
inductive TileLetter where
  | blank : Char → TileLetter
  | char : Char → TileLetter
deriving DecidableEq, Repr

/-- `TileLetter::to_char`. -/
def TileLetter.to_char : TileLetter → Char
  | .blank c => c
  | .char c => c

/-- A single placement of a letter at a 0-indexed cell
(`struct TilePlacement`). -/
structure TilePlacement where
  letter : TileLetter
  row : Nat
  col : Nat
deriving DecidableEq, Repr

/-- A solution: a placement list and its total score
(`struct Solution`).  The `BinaryHeap<Solution>` returned by
`generate_moves` is modelled as the list of its elements in push order
(only the score field is compared by the heap, and every pushed score
is 0). -/
structure Solution where
  placement : List TilePlacement
  score : Nat
deriving DecidableEq, Repr

/-- Play directions (`enum Direction`): top-down and left-right. -/
inductive Direction where
  | TD
  | LR
deriving DecidableEq, Repr

/-- A 0-indexed board position `(row, col)` (`type Pos`). -/
abbrev Pos := Nat × Nat

/-- The full lowercase alphabet, `(b'a'..=b'z').map(char::from)` in
`Solver::new`. -/
def alphabet : List Char :=
  ['a', 'b', 'c', 'd', 'e', 'f', 'g', 'h', 'i', 'j', 'k', 'l', 'm',
   'n', 'o', 'p', 'q', 'r', 's', 't', 'u', 'v', 'w', 'x', 'y', 'z']

/-- The solver state (`struct Solver`): the word graph, the board
dimensions and flattened row-major board, the two cross-set arrays
(`cross_sets.0` for left-right plays, `cross_sets.1` for top-down
plays), and the candidate anchor set (`HashSet<Pos>` modelled as a
list). -/
structure Solver where
  graph : Graph
  rows : Nat
  cols : Nat
  board : List (Option TileLetter)
  crossLR : List (List Char)
  crossTD : List (List Char)
  candidates : List Pos

/-- `Solver::new`: rejects even dimensions, otherwise builds an empty
board whose every cell carries the full alphabet in both cross-set
arrays (the source pushes a clone of the full charset for each of the
`rows*cols` cells), with the centre as the only candidate anchor. -/
def Solver.new (rows cols : Nat) : Except String Solver :=
  if rows % 2 = 0 ∨ cols % 2 = 0 then
    Except.error "rows and cols must be odd numbers"
  else
    Except.ok
      { graph := Graph.new
        rows := rows
        cols := cols
        board := List.replicate (rows * cols) none
        crossLR := List.replicate (rows * cols) alphabet
        crossTD := List.replicate (rows * cols) alphabet
        candidates := [(rows / 2, cols / 2)] }

/-- `Solver::get_index`: row-major flattening. -/
def Solver.get_index (s : Solver) (row col : Nat) : Nat :=
  s.cols * row + col

/-- The board cell content at `(row, col)` (the read
`self.board[self.get_index(row, col)]`; an out-of-range index panics in
the source and reads the `getD` default here — every verified run stays
in range). -/
def tileAt (s : Solver) (row col : Nat) : Option TileLetter :=
  s.board.getD (s.get_index row col) none

/-- `Solver::get_cross_set`: the cross set stored for `(row, col)` in
direction `dir`. -/
def crossSetAt (s : Solver) (row col : Nat) (d : Direction) : List Char :=
  match d with
  | .LR => s.crossLR.getD (s.get_index row col) []
  | .TD => s.crossTD.getD (s.get_index row col) []

/-- The left-right branch of `Solver::get_left_most_anchor`:
`while row > 0 { if candidates.contains(&(row-1, col)) { row -= 1 } }`.
When the test fails with `row > 0` the loop body does nothing and the
loop repeats with unchanged state, so the source diverges; the model
burns one unit of fuel per iteration and returns `none` when fuel runs
out, hence `none` for every fuel exactly when the source spins. -/
def glmaLR (cand : List Pos) : Nat → Pos → Option Pos
  | _, (0, col) => some (0, col)
  | 0, _ => none
  | fuel + 1, (r + 1, col) =>
    if (r, col) ∈ cand then glmaLR cand fuel (r, col)
    else glmaLR cand fuel (r + 1, col)

/-- The top-down branch of `Solver::get_left_most_anchor`:
`while col > 0 { if candidates.contains(&(row, col-1)) { row -= 1 } }`.
As written the loop tests `col` but decrements `row`, so `col` never
changes; when the membership test succeeds at `row = 0` the `usize`
subtraction underflows (a panic, modelled as `none`). -/
def glmaTD (cand : List Pos) : Nat → Pos → Option Pos
  | _, (row, 0) => some (row, 0)
  | 0, _ => none
  | fuel + 1, (row, c + 1) =>
    if (row, c) ∈ cand then
      match row with
      | 0 => none
      | r + 1 => glmaTD cand fuel (r, c + 1)
    else glmaTD cand fuel (row, c + 1)

/-- `Solver::get_left_most_anchor`, dispatching on the direction. -/
def get_left_most_anchor (cand : List Pos) (d : Direction) (fuel : Nat) (p : Pos) :
    Option Pos :=
  match d with
  | .LR => glmaLR cand fuel p
  | .TD => glmaTD cand fuel p

/-- `Solver::add_dictionary_word`: delegates to `Graph::add_word`. -/
def Solver.add_dictionary_word (s : Solver) (w : List Char) : Solver :=
  { s with graph := s.graph.add_word w }

/-- `Solver::place_tiles` — the source body is empty (`{}`): it
validates nothing, mutates nothing, and has no error channel. -/
def Solver.place_tiles (s : Solver) (_placements : List TilePlacement) : Solver :=
  s

/-! ## Dead code of the solver

`compute_candidates`, `compute_cross_sets` and `walk_tile` exist in
`src/solver.rs` but are never invoked: `place_tiles`, the only intended
caller, has an empty body.  They are embedded for completeness. -/

/-- The body of the per-placement loop of `Solver::compute_candidates`:
clear both cross sets of the placed cell and insert every empty
orthogonal neighbour into the candidate set (the `HashSet` insert is
modelled as append-if-absent). -/
def insertPos (p : Pos) (l : List Pos) : List Pos :=
  if p ∈ l then l else l ++ [p]

/-- `Solver::compute_candidates`: record every placement's cell, clear
its cross sets, insert its empty neighbours as candidates, and finally
remove the newly covered cells from the candidate set. -/
def Solver.compute_candidates (s : Solver) (placements : List TilePlacement) : Solver :=
  let step := fun (acc : Solver × List Pos) (p : TilePlacement) =>
    let s := acc.1
    let i := s.get_index p.row p.col
    let s := { s with crossLR := s.crossLR.set i [], crossTD := s.crossTD.set i [] }
    let s := if 0 < p.row ∧ tileAt s (p.row - 1) p.col = none then
        { s with candidates := insertPos (p.row - 1, p.col) s.candidates } else s
    let s := if p.row < s.rows - 1 ∧ tileAt s (p.row + 1) p.col = none then
        { s with candidates := insertPos (p.row + 1, p.col) s.candidates } else s
    let s := if 0 < p.col ∧ tileAt s p.row (p.col - 1) = none then
        { s with candidates := insertPos (p.row, p.col - 1) s.candidates } else s
    let s := if p.col < s.cols - 1 ∧ tileAt s p.row (p.col + 1) = none then
        { s with candidates := insertPos (p.row, p.col + 1) s.candidates } else s
    (s, acc.2 ++ [(p.row, p.col)])
  let r := placements.foldl step (s, [])
  { r.1 with candidates := r.2.foldl (fun c p => c.filter (fun q => q ≠ p)) r.1.candidates }

/-- `Solver::walk_tile` — the source body is only a TODO comment. -/
def Solver.walk_tile (s : Solver) (_row _col : Nat) (_offset : Int) (_d : Direction) :
    Solver :=
  s

/-- The skip loop of `Solver::compute_cross_sets`: count how many
consecutive occupied cells extend from `(row, col)` in the increasing
direction of `d` (bounded by the board edge). -/
def skipOccupied (s : Solver) (row col : Nat) (d : Direction) : Nat → Nat → Nat
  | 0, offset => offset
  | f + 1, offset =>
    match d with
    | .TD =>
      if row + offset < s.rows - 1 ∧ (tileAt s (row + offset + 1) col).isSome then
        skipOccupied s row col d f (offset + 1)
      else offset
    | .LR =>
      if col + offset < s.cols - 1 ∧ (tileAt s row (col + offset + 1)).isSome then
        skipOccupied s row col d f (offset + 1)
      else offset

/-- `Solver::compute_cross_sets`: for every candidate, skip to the
bottom-most (resp. right-most) occupied square and walk back from there
by `walk_tile` (which is a stub, so the whole pass leaves the solver
unchanged). -/
def Solver.compute_cross_sets (s : Solver) : Solver :=
  s.candidates.foldl
    (fun acc cand =>
      let o1 := skipOccupied acc cand.1 cand.2 Direction.TD acc.rows 0
      let acc := if 0 < o1 then acc.walk_tile (cand.1 + o1) cand.2 0 Direction.TD else acc
      let o2 := skipOccupied acc cand.1 cand.2 Direction.LR acc.cols 0
      if 0 < o2 then acc.walk_tile cand.1 (cand.2 + o2) 0 Direction.LR else acc)
    s

/-! ## The move generator (`MoveGenerator` of `src/solver.rs`)

`generate` and `go_on` are mutually recursive and mutate two vectors: the
running placement list (`words`, inserted at the front when walking left
and pushed at the back when walking right, never popped) and the
accumulated move list.  Both are threaded as an explicit `GenState`.
The mutual recursion and its internal loops (the rack loop and the
blank inner loop over the cross set) are encoded as one fuel-indexed
step function over a call type, so every definition is structural and
computable by the kernel. -/

/-- The mutable state of a `MoveGenerator` walk: the running placement
vector and the accumulated moves. -/
structure GenState where
  placements : List TilePlacement
  moves : List (List TilePlacement)
deriving DecidableEq, Repr

/-- The cell reached from `(row, col)` when moving `offset` steps along
`d` (the `row as isize + offset` / `col as isize + offset` shifts of
`generate` and `go_on`). -/
def shiftedCell (row col : Nat) (d : Direction) (offset : Int) : Int × Int :=
  match d with
  | .TD => ((row : Int) + offset, (col : Int))
  | .LR => ((row : Int), (col : Int) + offset)

/-- Pending calls of the `generate`/`go_on` walk.  `gen` and `goOn` are
the two source functions; `genLoop` is `generate`'s `for (idx, letter)`
rack loop and `blankLoop` its inner `for playable in cross_set` loop,
made explicit so the recursion is structural in the fuel. -/
inductive MGCall where
  | gen (st : GenState) (offset : Int) (rack : List RackLetter) (arc : Arc)
  | genLoop (st : GenState) (offset : Int) (rack : List RackLetter)
      (remaining : List (Nat × RackLetter)) (arc : Arc)
  | blankLoop (st : GenState) (offset : Int) (rack : List RackLetter) (idx : Nat)
      (playables : List Char) (rest : List (Nat × RackLetter)) (arc : Arc)
  | goOn (st : GenState) (letter : TileLetter) (offset : Int) (rack : List RackLetter)
      (oldArc : Arc) (newArc : Option Arc)

/-- One fuel-indexed run of `MoveGenerator::generate`/`go_on` with the
anchor `(row, col)` and direction `d` fixed.  Faithful points to note:

  * `generate` reads the board at `get_index(self.row, self.col)` —
    the unshifted anchor — for every `offset` (source line 294), while
    the cross-set lookup and `go_on`'s placements use the shifted cell;
  * `go_on` records a move only when the played letter lies in the
    letter set of `old_arc` (the arc the walk sat on before taking the
    letter) and the next cell against the walking direction is on the
    board and empty (`row > 0 && …`, `col as usize + 1 < cols && …`);
  * the rightward recursion guard compares, for both directions,
    against `self.solver.cols` (source line 407);
  * the placement vector is never popped, so letters leak across loop
    iterations exactly as in the source. -/
def mgRun (s : Solver) (row col : Nat) (d : Direction) : Nat → MGCall → Option GenState
  | 0, _ => none
  | fuel + 1, MGCall.gen st offset rack arc =>
    match s.board.getD (s.get_index row col) none with
    | some tile =>
      mgRun s row col d fuel
        (MGCall.goOn st tile offset rack arc (lookupArc arc.next (Kind.char tile.to_char)))
    | none =>
      if rack = [] then some st
      else
        let cell := shiftedCell row col d offset
        let cross := crossSetAt s cell.1.toNat cell.2.toNat d
        if cross = [] then some st
        else mgRun s row col d fuel (MGCall.genLoop st offset rack rack.enum arc)
  | fuel + 1, MGCall.genLoop st offset rack remaining arc =>
    match remaining with
    | [] => some st
    | (idx, RackLetter.char ch) :: rest =>
      let cell := shiftedCell row col d offset
      let cross := crossSetAt s cell.1.toNat cell.2.toNat d
      if ch ∈ cross then
        match mgRun s row col d fuel
            (MGCall.goOn st (TileLetter.char ch) offset (rack.eraseIdx idx) arc
              (lookupArc arc.next (Kind.char ch))) with
        | none => none
        | some st2 => mgRun s row col d fuel (MGCall.genLoop st2 offset rack rest arc)
      else mgRun s row col d fuel (MGCall.genLoop st offset rack rest arc)
    | (idx, RackLetter.blank) :: rest =>
      let cell := shiftedCell row col d offset
      let cross := crossSetAt s cell.1.toNat cell.2.toNat d
      mgRun s row col d fuel (MGCall.blankLoop st offset rack idx cross rest arc)
  | fuel + 1, MGCall.blankLoop st offset rack idx playables rest arc =>
    match playables with
    | [] => mgRun s row col d fuel (MGCall.genLoop st offset rack rest arc)
    | p :: ps =>
      match mgRun s row col d fuel
          (MGCall.goOn st (TileLetter.blank p) offset (rack.eraseIdx idx) arc
            (lookupArc arc.next (Kind.char p))) with
      | none => none
      | some st2 => mgRun s row col d fuel (MGCall.blankLoop st2 offset rack idx ps rest arc)
  | fuel + 1, MGCall.goOn st letter offset rack oldArc newArc =>
    let cell := shiftedCell row col d offset
    let r := cell.1
    let c := cell.2
    if offset ≤ 0 then
      let placements := ⟨letter, r.toNat, c.toNat⟩ :: st.placements
      let emptyLeft : Bool :=
        match d with
        | .TD => decide (0 < r) &&
            decide (s.board.getD (s.get_index (r.toNat - 1) c.toNat) none = none)
        | .LR => decide (0 < c) &&
            decide (s.board.getD (s.get_index r.toNat (c.toNat - 1)) none = none)
      let moves :=
        if decide (letter.to_char ∈ oldArc.letter_set) && emptyLeft then
          st.moves ++ [placements]
        else st.moves
      let st1 : GenState := ⟨placements, moves⟩
      match newArc with
      | none => some st1
      | some a =>
        match (if (d = Direction.LR ∧ 0 < c) ∨ (d = Direction.TD ∧ 0 < r) then
            mgRun s row col d fuel (MGCall.gen st1 (offset - 1) rack a)
          else some st1) with
        | none => none
        | some st2 =>
          match lookupArc a.next Kind.delim with
          | some dArc => mgRun s row col d fuel (MGCall.gen st2 1 rack dArc)
          | none => some st2
    else
      let placements := st.placements ++ [⟨letter, r.toNat, c.toNat⟩]
      let emptyRight : Bool :=
        match d with
        | .TD => decide (r.toNat + 1 < s.rows) &&
            decide (s.board.getD (s.get_index (r.toNat + 1) c.toNat) none = none)
        | .LR => decide (c.toNat + 1 < s.cols) &&
            decide (s.board.getD (s.get_index r.toNat (c.toNat + 1)) none = none)
      let moves :=
        if decide (letter.to_char ∈ oldArc.letter_set) && emptyRight then
          st.moves ++ [placements]
        else st.moves
      let st1 : GenState := ⟨placements, moves⟩
      if (d = Direction.LR ∧ c < (s.cols : Int) - 1) ∨
          (d = Direction.TD ∧ r < (s.cols : Int) - 1) then
        match newArc with
        | some a => mgRun s row col d fuel (MGCall.gen st1 (offset + 1) rack a)
        | none => some st1
      else some st1

/-- `MoveGenerator::generate_moves`: run the walk from the anchor with an
empty placement vector, offset 0, the given rack and the graph's initial
arc, and return the collected moves. -/
def MoveGenerator.generate_moves (s : Solver) (rack : List RackLetter) (row col : Nat)
    (d : Direction) (fuel : Nat) : Option (List (List TilePlacement)) :=
  (mgRun s row col d fuel (MGCall.gen ⟨[], []⟩ 0 rack s.graph.init)).map GenState.moves

/-- `Solver::generate_moves_in_dir`: run the move generator at the
anchor, then for every generated placement list remove its cells from
the live candidate set and push a score-0 solution. -/
def gmInDir (s : Solver) (fuel : Nat) (letters : List RackLetter) (anchor : Pos)
    (d : Direction) (sols : List Solution) (cand : List Pos) :
    Option (List Solution × List Pos) :=
  match MoveGenerator.generate_moves s letters anchor.1 anchor.2 d fuel with
  | none => none
  | some moves =>
    some (moves.foldl
      (fun acc placements =>
        (acc.1 ++ [⟨placements, 0⟩],
         placements.foldl (fun c tp => c.filter (fun q => q ≠ (tp.row, tp.col))) acc.2))
      (sols, cand))

/-- The candidate loop of `Solver::generate_moves`.  The snapshot list is
iterated while the live candidate set (`cand` of the accumulator) is
consulted by `get_left_most_anchor` and the `contains` test; both
branches of the source body pass `Direction::LR` (the second never asks
for a top-down anchor), embedded as written. -/
def gmLoop (s : Solver) (fuel : Nat) (letters : List RackLetter) :
    List Pos → List Solution × List Pos → Option (List Solution × List Pos)
  | [], acc => some acc
  | p :: rest, (sols, cand) =>
    match get_left_most_anchor cand Direction.LR fuel p with
    | none => none
    | some anchor =>
      match (if anchor ∈ cand then gmInDir s fuel letters anchor Direction.LR sols cand
          else some (sols, cand)) with
      | none => none
      | some (sols1, cand1) =>
        match get_left_most_anchor cand1 Direction.LR fuel p with
        | none => none
        | some anchor2 =>
          match (if anchor2 ∈ cand1 then
              gmInDir s fuel letters anchor2 Direction.LR sols1 cand1
            else some (sols1, cand1)) with
          | none => none
          | some acc2 => gmLoop s fuel letters rest acc2

/-- `Solver::generate_moves`: iterate the candidate loop over a clone of
the candidate set and return the solutions together with the solver,
whose candidate set the loop may have shrunk. -/
def Solver.generate_moves (s : Solver) (letters : List RackLetter) (fuel : Nat) :
    Option (List Solution × Solver) :=
  (gmLoop s fuel letters s.candidates ([], s.candidates)).map
    (fun r => (r.1, { s with candidates := r.2 }))

/-! ## Concrete states used by the claim theorems -/

/-- The solver produced by `Solver::new(3, 3)`. -/
def S33 : Solver :=
  { graph := Graph.new
    rows := 3
    cols := 3
    board := List.replicate 9 none
    crossLR := List.replicate 9 alphabet
    crossTD := List.replicate 9 alphabet
    candidates := [(1, 1)] }

/-- The solver produced by `Solver::new(1, 5)`. -/
def S15 : Solver :=
  { graph := Graph.new
    rows := 1
    cols := 5
    board := List.replicate 5 none
    crossLR := List.replicate 5 alphabet
    crossTD := List.replicate 5 alphabet
    candidates := [(0, 2)] }

/-- The solver produced by `Solver::new(1, 1)`. -/
def S11 : Solver :=
  { graph := Graph.new
    rows := 1
    cols := 1
    board := List.replicate 1 none
    crossLR := List.replicate 1 alphabet
    crossTD := List.replicate 1 alphabet
    candidates := [(0, 0)] }

/-- A 1-by-3 solver state with a tile `b` at `(0, 0)` and the anchor cell
`(0, 1)` empty, used to exhibit the unshifted board read of `generate`. -/
def Sc6 : Solver :=
  { graph := Graph.new
    rows := 1
    cols := 3
    board := [some (TileLetter.char 'b'), none, none]
    crossLR := List.replicate 3 alphabet
    crossTD := List.replicate 3 alphabet
    candidates := [(0, 1)] }


/-! ## Lemmas about the GADDAG insertion -/

/-- The arc update `Arc::add_word` applies to the arc stored under the
symbol just consumed: insert the letter when the word ends here,
otherwise push the remainder into the target node. -/
def arcStep (a : Arc) (k : Kind) (ws : List Kind) : Arc :=
  match k, ws with
  | Kind.char c, [] => Arc.mk (insertChar c a.letter_set) a.next
  | _, _ => Arc.mk a.letter_set (Node.add_word a.next ws)

theorem add_word_cons (n : Node) (k : Kind) (ws : List Kind) :
    Node.add_word n (k :: ws) =
      match lookupArc n k with
      | none => n ++ [(k, arcStep Arc.new k ws)]
      | some a => setArc n k (arcStep a k ws) := by
  cases h : lookupArc n k <;> simp only [Node.add_word, arcStep, h, Option.getD]

theorem arc_letter_set_arcStep {c : Char} (a : Arc) (k : Kind) (ws : List Kind)
    (h : c ∈ a.letter_set) : c ∈ (arcStep a k ws).letter_set := by
  cases ws with
  | nil =>
    cases k with
    | char c0 =>
      show c ∈ insertChar c0 a.letter_set
      unfold insertChar
      split
      · exact h
      · exact List.mem_append_left _ h
    | delim => exact h
  | cons w ws2 => cases k <;> exact h

theorem mem_insertChar_self (c : Char) (l : List Char) : c ∈ insertChar c l := by
  unfold insertChar
  split
  · assumption
  · exact List.mem_append_right _ (List.mem_singleton.mpr rfl)

theorem arcStep_next_nil (a : Arc) (k : Kind) : (arcStep a k []).next = a.next := by
  cases k <;> rfl

theorem arcStep_next_cons (a : Arc) (k w : Kind) (ws : List Kind) :
    (arcStep a k (w :: ws)).next = Node.add_word a.next (w :: ws) := by
  cases k <;> rfl

theorem arcStep_letter_set_cons (a : Arc) (k w : Kind) (ws : List Kind) :
    (arcStep a k (w :: ws)).letter_set = a.letter_set := by
  cases k <;> rfl

theorem lookupArc_append_of_none {n : Node} {k : Kind} (a : Arc)
    (h : lookupArc n k = none) : lookupArc (n ++ [(k, a)]) k = some a := by
  induction n with
  | nil => simp [lookupArc]
  | cons p rest ih =>
    obtain ⟨k0, a0⟩ := p
    by_cases hk : k0 = k
    · simp [lookupArc, hk] at h
    · simp only [List.cons_append, lookupArc, if_neg hk] at h ⊢
      exact ih h

theorem lookupArc_append_of_ne {n : Node} {k k2 : Kind} (a : Arc) (h : k2 ≠ k) :
    lookupArc (n ++ [(k2, a)]) k = lookupArc n k := by
  induction n with
  | nil => simp [lookupArc, h]
  | cons p rest ih =>
    obtain ⟨k0, a0⟩ := p
    by_cases hk : k0 = k
    · simp [lookupArc, hk]
    · simp only [List.cons_append, lookupArc, if_neg hk]
      exact ih

theorem lookupArc_set_self {n : Node} {k : Kind} {b : Arc} (a : Arc)
    (h : lookupArc n k = some b) : lookupArc (setArc n k a) k = some a := by
  induction n with
  | nil => simp [lookupArc] at h
  | cons p rest ih =>
    obtain ⟨k0, a0⟩ := p
    by_cases hk : k0 = k
    · subst hk
      simp [setArc, lookupArc]
    · simp only [lookupArc, if_neg hk] at h
      simp only [setArc, if_neg hk, lookupArc]
      exact ih h

theorem lookupArc_set_ne {n : Node} {k k2 : Kind} (a : Arc) (h : k2 ≠ k) :
    lookupArc (setArc n k2 a) k = lookupArc n k := by
  induction n with
  | nil => simp [setArc, lookupArc]
  | cons p rest ih =>
    obtain ⟨k0, a0⟩ := p
    by_cases hk : k0 = k2
    · subst hk
      simp only [setArc, if_pos rfl, lookupArc, if_neg h]
    · simp only [setArc, if_neg hk, lookupArc]
      by_cases hk0 : k0 = k
      · simp [hk0]
      · simp only [if_neg hk0]
        exact ih

theorem followPath_cons_cons (m : Node) (k k2 : Kind) (ks : List Kind) :
    followPath m (k :: k2 :: ks) =
      match lookupArc m k with
      | none => none
      | some a => followPath a.next (k2 :: ks) := rfl

theorem followPath_lookup_congr {m m2 : Node} {k : Kind} (ks : List Kind)
    (h : lookupArc m2 k = lookupArc m k) :
    followPath m2 (k :: ks) = followPath m (k :: ks) := by
  cases ks with
  | nil => simpa [followPath] using h
  | cons k2 ks => rw [followPath_cons_cons, followPath_cons_cons, h]

theorem follow_add_word (ws : List Kind) :
    ∀ (n : Node) (c : Char), ws ≠ [] → ws.getLast? = some (Kind.char c) →
      ∃ a, followPath (Node.add_word n ws) ws = some a ∧ c ∈ a.letter_set := by
  induction ws with
  | nil => intro n c h _; exact absurd rfl h
  | cons k ks ih =>
    intro n c _ hlast
    cases ks with
    | nil =>
      simp only [List.getLast?_singleton, Option.some.injEq] at hlast
      subst hlast
      rw [add_word_cons]
      cases h : lookupArc n (Kind.char c) with
      | none =>
        refine ⟨arcStep Arc.new (Kind.char c) [], ?_, ?_⟩
        · show lookupArc (n ++ [(Kind.char c, arcStep Arc.new (Kind.char c) [])])
            (Kind.char c) = _
          exact lookupArc_append_of_none _ h
        · exact mem_insertChar_self c _
      | some b =>
        refine ⟨arcStep b (Kind.char c) [], ?_, ?_⟩
        · show lookupArc (setArc n (Kind.char c) (arcStep b (Kind.char c) []))
            (Kind.char c) = _
          exact lookupArc_set_self _ h
        · exact mem_insertChar_self c _
    | cons k2 ks2 =>
      rw [List.getLast?_cons_cons] at hlast
      rw [add_word_cons]
      cases h : lookupArc n k with
      | none =>
        rw [followPath_cons_cons, lookupArc_append_of_none _ h]
        show ∃ a, followPath (arcStep Arc.new k (k2 :: ks2)).next (k2 :: ks2) = some a ∧
          c ∈ a.letter_set
        rw [arcStep_next_cons]
        exact ih (Arc.new.next) c (by simp) hlast
      | some b =>
        rw [followPath_cons_cons, lookupArc_set_self _ h]
        show ∃ a, followPath (arcStep b k (k2 :: ks2)).next (k2 :: ks2) = some a ∧
          c ∈ a.letter_set
        rw [arcStep_next_cons]
        exact ih b.next c (by simp) hlast

theorem follow_add_word_mono (ks : List Kind) :
    ∀ (n : Node) (ws : List Kind) (a : Arc) (c : Char),
      followPath n ks = some a → c ∈ a.letter_set →
      ∃ b, followPath (Node.add_word n ws) ks = some b ∧ c ∈ b.letter_set := by
  induction ks with
  | nil => intro n ws a c h _; simp [followPath] at h
  | cons k ks ih =>
    intro n ws a c hf hc
    cases ws with
    | nil => exact ⟨a, hf, hc⟩
    | cons w ws2 =>
      rw [add_word_cons]
      by_cases hkw : w = k
      · subst hkw
        cases h : lookupArc n w with
        | none =>
          exfalso
          cases ks with
          | nil =>
            simp only [followPath, h] at hf
            exact Option.noConfusion hf
          | cons k2 ks2 =>
            rw [followPath_cons_cons, h] at hf
            exact Option.noConfusion hf
        | some b0 =>
          show ∃ b, followPath (setArc n w (arcStep b0 w ws2)) (w :: ks) = some b ∧
            c ∈ b.letter_set
          cases ks with
          | nil =>
            have hb0 : b0 = a := by
              have hf2 : lookupArc n w = some a := hf
              rw [h] at hf2
              exact Option.some.inj hf2
            subst hb0
            refine ⟨arcStep b0 w ws2, ?_, arc_letter_set_arcStep _ _ _ hc⟩
            show lookupArc (setArc n w (arcStep b0 w ws2)) w = _
            exact lookupArc_set_self _ h
          | cons k2 ks2 =>
            rw [followPath_cons_cons, h] at hf
            have hf2 : followPath b0.next (k2 :: ks2) = some a := hf
            rw [followPath_cons_cons, lookupArc_set_self _ h]
            show ∃ b, followPath (arcStep b0 w ws2).next (k2 :: ks2) = some b ∧
              c ∈ b.letter_set
            cases ws2 with
            | nil =>
              rw [arcStep_next_nil]
              exact ⟨a, hf2, hc⟩
            | cons w2 ws3 =>
              rw [arcStep_next_cons]
              exact ih b0.next (w2 :: ws3) a c hf2 hc
      · cases h : lookupArc n w with
        | none =>
          show ∃ b, followPath (n ++ [(w, arcStep Arc.new w ws2)]) (k :: ks) = some b ∧
            c ∈ b.letter_set
          rw [followPath_lookup_congr ks (lookupArc_append_of_ne _ hkw)]
          exact ⟨a, hf, hc⟩
        | some b0 =>
          show ∃ b, followPath (setArc n w (arcStep b0 w ws2)) (k :: ks) = some b ∧
            c ∈ b.letter_set
          rw [followPath_lookup_congr ks (lookupArc_set_ne _ hkw)]
          exact ⟨a, hf, hc⟩

theorem follow_foldl_mono (l : List (List Kind)) :
    ∀ (n : Node) (ks : List Kind) (a : Arc) (c : Char),
      followPath n ks = some a → c ∈ a.letter_set →
      ∃ b, followPath (l.foldl Node.add_word n) ks = some b ∧ c ∈ b.letter_set := by
  induction l with
  | nil => intro n ks a c h hc; exact ⟨a, h, hc⟩
  | cons w l ih =>
    intro n ks a c h hc
    obtain ⟨b, hb, hcb⟩ := follow_add_word_mono ks n w a c h hc
    exact ih _ ks b c hb hcb

theorem follow_foldl_of_mem (l : List (List Kind)) :
    ∀ (n : Node) (ks : List Kind) (c : Char),
      ks ∈ l → ks ≠ [] → ks.getLast? = some (Kind.char c) →
      ∃ a, followPath (l.foldl Node.add_word n) ks = some a ∧ c ∈ a.letter_set := by
  induction l with
  | nil => intro n ks c h _ _; simp at h
  | cons w l ih =>
    intro n ks c hmem hne hlast
    rcases List.mem_cons.mp hmem with h | h
    · subst h
      obtain ⟨a, ha, hca⟩ := follow_add_word ks n c hne hlast
      exact follow_foldl_mono l (Node.add_word n ks) ks a c ha hca
    · exact ih _ ks c h hne hlast

theorem gaddagSeq_ne_nil {w : List Char} {i : Nat} (hw : w ≠ []) (h1 : 1 ≤ i) :
    gaddagSeq w i ≠ [] := by
  unfold gaddagSeq
  intro h
  have h2 := (List.append_eq_nil.mp h).1
  rw [List.map_eq_nil_iff, List.reverse_eq_nil_iff, List.take_eq_nil_iff] at h2
  rcases h2 with h2 | h2
  · omega
  · exact hw h2

theorem gaddagSeq_getLast_lt {w : List Char} {i : Nat} (h : i < w.length) :
    ∃ c, w.getLast? = some c ∧ (gaddagSeq w i).getLast? = some (Kind.char c) := by
  have hd : w.drop i ≠ [] := by
    intro hnil
    have := List.drop_eq_nil_iff.mp hnil
    omega
  obtain ⟨c, hc⟩ := Option.isSome_iff_exists.mp (List.getLast?_isSome.mpr hd)
  refine ⟨c, ?_, ?_⟩
  · conv_lhs => rw [← List.take_append_drop i w]
    rw [List.getLast?_append, hc, Option.or_some]
  · unfold gaddagSeq
    rw [if_neg hd, List.getLast?_append]
    have hB : (Kind.delim :: (w.drop i).map Kind.char).getLast? = some (Kind.char c) := by
      have : Kind.delim :: (w.drop i).map Kind.char =
          [Kind.delim] ++ (w.drop i).map Kind.char := rfl
      rw [this, List.getLast?_append, List.getLast?_map, hc]
      rfl
    rw [hB, Option.or_some]

theorem gaddagSeq_getLast_eq {w : List Char} (hw : w ≠ []) :
    ∃ c, w.head? = some c ∧ (gaddagSeq w w.length).getLast? = some (Kind.char c) := by
  obtain ⟨c, hc⟩ := Option.isSome_iff_exists.mp (List.head?_isSome.mpr hw)
  have hseq : gaddagSeq w w.length = w.reverse.map Kind.char := by
    unfold gaddagSeq
    rw [if_pos (by simp), List.take_length, List.append_nil]
  have hlast : (gaddagSeq w w.length).getLast? = some (Kind.char c) := by
    rw [hseq, List.getLast?_map, List.getLast?_reverse, hc]
    rfl
  exact ⟨c, hc, hlast⟩

/-- Claim C8 (amended): after `add_word(w)` for a non-empty word
`w = c1..cn`, for every split index `i ∈ [1,n]` the graph contains a path
from the root labelled `ci, ci-1, …, c1`, then `Delim` (omitted when
`i = n`), then `ci+1, …, cn`; the final arc of that path contains the
path's own final letter in its letter-set — that letter is `cn` when
`i < n`, but `c1` when `i = n` (for `i = n` the path is the whole word
reversed and ends with `c1`, not `cn`). -/
theorem claim_C8_split_paths (g : Graph) (w : List Char) (i : Nat)
    (hw : w ≠ []) (h1 : 1 ≤ i) (h2 : i ≤ w.length) :
    ∃ a c,
      ((i < w.length ∧ w.getLast? = some c) ∨ (i = w.length ∧ w.head? = some c)) ∧
      followPath (g.add_word w).init.next (gaddagSeq w i) = some a ∧
      c ∈ a.letter_set := by
  have hmem : gaddagSeq w i ∈ (List.range w.length).map (fun j => gaddagSeq w (j + 1)) := by
    refine List.mem_map.mpr ⟨i - 1, List.mem_range.mpr (by omega), ?_⟩
    congr 1
    omega
  have hne := gaddagSeq_ne_nil hw h1
  by_cases hlt : i < w.length
  · obtain ⟨c, hc, hlast⟩ := gaddagSeq_getLast_lt hlt
    obtain ⟨a, ha, hca⟩ := follow_foldl_of_mem _ g.init.next _ c hmem hne hlast
    exact ⟨a, c, Or.inl ⟨hlt, hc⟩, ha, hca⟩
  · have heq : i = w.length := by omega
    subst heq
    obtain ⟨c, hc, hlast⟩ := gaddagSeq_getLast_eq hw
    obtain ⟨a, ha, hca⟩ := follow_foldl_of_mem _ g.init.next _ c hmem hne hlast
    exact ⟨a, c, Or.inr ⟨rfl, hc⟩, ha, hca⟩

/-- Witness for C8: the amended theorem applied to the concrete word
`"ab"` at split index 1 in a fresh graph. -/
theorem claim_C8_split_paths_witness :
    (['a', 'b'] : List Char) ≠ [] ∧ 1 ≤ 1 ∧ 1 ≤ (['a', 'b'] : List Char).length ∧
    (∃ a c,
      ((1 < (['a', 'b'] : List Char).length ∧ (['a', 'b'] : List Char).getLast? = some c) ∨
        (1 = (['a', 'b'] : List Char).length ∧ (['a', 'b'] : List Char).head? = some c)) ∧
      followPath (Graph.new.add_word ['a', 'b']).init.next (gaddagSeq ['a', 'b'] 1) =
        some a ∧
      c ∈ a.letter_set) :=
  ⟨by decide, by decide, by decide,
    claim_C8_split_paths Graph.new ['a', 'b'] 1 (by decide) (by decide) (by decide)⟩

/-- Counterexample for C8 as stated: for the word `"ab"` and split index
`i = n = 2` the inserted path is labelled `b, a`; its final arc is
labelled `a` (not `cn = b`) and its letter-set is `{a}`, which does not
contain `b`. -/
theorem claim_C8_counterexample :
    (gaddagSeq ['a', 'b'] 2).getLast? = some (Kind.char 'a') ∧
    followPath (Graph.new.add_word ['a', 'b']).init.next (gaddagSeq ['a', 'b'] 2) =
      some (Arc.mk ['a'] []) ∧
    ('b' ∈ Arc.letter_set (Arc.mk ['a'] []) → False) :=
  ⟨rfl, rfl, by decide⟩

/-! ## Reachable solver states and board predicates -/

/-- The mutating operations of the solver API other than move
generation: `add_dictionary_word` and `place_tiles`. -/
inductive SolverOp where
  | add : List Char → SolverOp
  | place : List TilePlacement → SolverOp

/-- Apply one solver operation. -/
def applyOp (s : Solver) : SolverOp → Solver
  | .add w => s.add_dictionary_word w
  | .place ps => s.place_tiles ps

/-- Apply a sequence of solver operations. -/
def runOps (s : Solver) (ops : List SolverOp) : Solver :=
  ops.foldl applyOp s

/-- A cell is empty: in bounds and unoccupied. -/
def cellEmptyB (s : Solver) (p : Pos) : Bool :=
  decide (p.1 < s.rows) && decide (p.2 < s.cols) && (tileAt s p.1 p.2).isNone

/-- The cell has at least one orthogonally adjacent placed tile. -/
def hasPlacedNeighbourB (s : Solver) (p : Pos) : Bool :=
  (decide (0 < p.1) && (tileAt s (p.1 - 1) p.2).isSome) ||
  (decide (p.1 + 1 < s.rows) && (tileAt s (p.1 + 1) p.2).isSome) ||
  (decide (0 < p.2) && (tileAt s p.1 (p.2 - 1)).isSome) ||
  (decide (p.2 + 1 < s.cols) && (tileAt s p.1 (p.2 + 1)).isSome)

/-- The board holds no tile at all. -/
def boardAllEmptyB (s : Solver) : Bool :=
  s.board.all (fun t => t.isNone)

/-- The contiguous run of letters directly above row `r` in column `c`,
top-down. -/
def tilesAbove (s : Solver) (c : Nat) : Nat → List Char
  | 0 => []
  | r + 1 =>
    match tileAt s r c with
    | some t => tilesAbove s c r ++ [t.to_char]
    | none => []

/-- The contiguous run of letters starting at row `r`, going down in
column `c` (fuel-bounded by the row count). -/
def tilesBelowAux (s : Solver) (c : Nat) : Nat → Nat → List Char
  | 0, _ => []
  | f + 1, r =>
    if r < s.rows then
      match tileAt s r c with
      | some t => t.to_char :: tilesBelowAux s c f (r + 1)
      | none => []
    else []

/-- The contiguous run of letters directly below row `r` in column `c`. -/
def tilesBelow (s : Solver) (c r : Nat) : List Char :=
  tilesBelowAux s c s.rows (r + 1)

/-- The contiguous run of letters directly left of column `c` in row `r`. -/
def tilesLeft (s : Solver) (r : Nat) : Nat → List Char
  | 0 => []
  | c + 1 =>
    match tileAt s r c with
    | some t => tilesLeft s r c ++ [t.to_char]
    | none => []

/-- The contiguous run of letters starting at column `c`, going right in
row `r` (fuel-bounded by the column count). -/
def tilesRightAux (s : Solver) (r : Nat) : Nat → Nat → List Char
  | 0, _ => []
  | f + 1, c =>
    if c < s.cols then
      match tileAt s r c with
      | some t => t.to_char :: tilesRightAux s r f (c + 1)
      | none => []
    else []

/-- The contiguous run of letters directly right of column `c` in row `r`. -/
def tilesRight (s : Solver) (r c : Nat) : List Char :=
  tilesRightAux s r s.cols (c + 1)

/-- The cell has a placed neighbour in the cross direction of `d`:
vertically for left-right plays, horizontally for top-down plays. -/
def hasCrossNeighbourB (s : Solver) (r c : Nat) (d : Direction) : Bool :=
  match d with
  | .LR => (decide (0 < r) && (tileAt s (r - 1) c).isSome) ||
      (decide (r + 1 < s.rows) && (tileAt s (r + 1) c).isSome)
  | .TD => (decide (0 < c) && (tileAt s r (c - 1)).isSome) ||
      (decide (c + 1 < s.cols) && (tileAt s r (c + 1)).isSome)

/-- A word is accepted by the graph: following the fully reversed word
(the split `i = n` insertion) from the root reaches an arc whose letter
set contains the word's first letter — the membership the `i = n` path
of `Graph::add_word` establishes. -/
def wordInGraphB (g : Graph) (w : List Char) : Bool :=
  match followPath g.init.next (w.reverse.map Kind.char), w.head? with
  | some a, some c0 => a.letter_set.contains c0
  | _, _ => false

/-- Placing `x` at `(r, c)` completes a dictionary word in the direction
perpendicular to `d` together with the adjacent existing tiles. -/
def crossWordFormedB (s : Solver) (r c : Nat) (d : Direction) (x : Char) : Bool :=
  match d with
  | .LR => wordInGraphB s.graph (tilesAbove s c r ++ x :: tilesBelow s c r)
  | .TD => wordInGraphB s.graph (tilesLeft s r c ++ x :: tilesRight s r c)

theorem getD_replicate_none (n i : Nat) :
    (List.replicate n (none : Option TileLetter)).getD i none = none := by
  induction n generalizing i with
  | zero => cases i <;> rfl
  | succ m ih => cases i with
    | zero => rfl
    | succ j => exact ih j

theorem getD_replicate_of_lt {α : Type} (a d : α) {n i : Nat} (h : i < n) :
    (List.replicate n a).getD i d = a := by
  induction n generalizing i with
  | zero => omega
  | succ m ih => cases i with
    | zero => rfl
    | succ j => exact ih (by omega)

theorem applyOp_state (s : Solver) (op : SolverOp) :
    (applyOp s op).rows = s.rows ∧ (applyOp s op).cols = s.cols ∧
    (applyOp s op).board = s.board ∧ (applyOp s op).crossLR = s.crossLR ∧
    (applyOp s op).crossTD = s.crossTD ∧ (applyOp s op).candidates = s.candidates := by
  cases op <;> exact ⟨rfl, rfl, rfl, rfl, rfl, rfl⟩

theorem runOps_state (ops : List SolverOp) :
    ∀ s : Solver,
      (runOps s ops).rows = s.rows ∧ (runOps s ops).cols = s.cols ∧
      (runOps s ops).board = s.board ∧ (runOps s ops).crossLR = s.crossLR ∧
      (runOps s ops).crossTD = s.crossTD ∧ (runOps s ops).candidates = s.candidates := by
  induction ops with
  | nil => intro s; exact ⟨rfl, rfl, rfl, rfl, rfl, rfl⟩
  | cons op ops ih =>
    intro s
    have h1 := applyOp_state s op
    have h2 := ih (applyOp s op)
    exact ⟨h2.1.trans h1.1, h2.2.1.trans h1.2.1, h2.2.2.1.trans h1.2.2.1,
      h2.2.2.2.1.trans h1.2.2.2.1, h2.2.2.2.2.1.trans h1.2.2.2.2.1,
      h2.2.2.2.2.2.trans h1.2.2.2.2.2⟩

theorem new_ok_fields {rows cols : Nat} {s : Solver}
    (h : Solver.new rows cols = Except.ok s) :
    s.rows = rows ∧ s.cols = cols ∧ s.board = List.replicate (rows * cols) none ∧
    s.crossLR = List.replicate (rows * cols) alphabet ∧
    s.crossTD = List.replicate (rows * cols) alphabet ∧
    s.candidates = [(rows / 2, cols / 2)] ∧ s.graph = Graph.new := by
  unfold Solver.new at h
  split at h
  · exact absurd h (by simp)
  · cases h
    exact ⟨rfl, rfl, rfl, rfl, rfl, rfl, rfl⟩

theorem tileAt_replicate {s : Solver}
    (h : s.board = List.replicate (s.rows * s.cols) none) (r c : Nat) :
    tileAt s r c = none := by
  unfold tileAt
  rw [h]
  exact getD_replicate_none _ _

/-- Claim C5: after any sequence of (always successful) `place_tiles`
calls — interleaved with `add_dictionary_word`, which touches only the
graph — the candidate anchor set equals the set of empty cells with at
least one orthogonally placed neighbour, plus the centre iff the board
holds no tiles.  The source `place_tiles` has an empty body, so every
reachable state keeps the fresh board and the singleton centre anchor,
for which the equality holds. -/
theorem claim_C5_anchor_invariant (rows cols : Nat) (s0 : Solver) (ops : List SolverOp)
    (h : Solver.new rows cols = Except.ok s0) (p : Pos) :
    p ∈ (runOps s0 ops).candidates ↔
      (cellEmptyB (runOps s0 ops) p = true ∧
        hasPlacedNeighbourB (runOps s0 ops) p = true) ∨
      (p = (rows / 2, cols / 2) ∧ boardAllEmptyB (runOps s0 ops) = true) := by
  obtain ⟨hr, hc, hb, _, _, hcand, _⟩ := new_ok_fields h
  obtain ⟨hr2, hc2, hb2, _, _, hcand2⟩ := runOps_state ops s0
  have hboard : (runOps s0 ops).board =
      List.replicate ((runOps s0 ops).rows * (runOps s0 ops).cols) none := by
    rw [hb2, hr2, hc2, hr, hc, hb]
  have htile := tileAt_replicate hboard
  have hnb : hasPlacedNeighbourB (runOps s0 ops) p = false := by
    unfold hasPlacedNeighbourB
    rw [htile, htile, htile, htile]
    simp
  have hempty : boardAllEmptyB (runOps s0 ops) = true := by
    unfold boardAllEmptyB
    rw [List.all_eq_true]
    intro x hx
    rw [hboard] at hx
    rw [List.eq_of_mem_replicate hx]
    rfl
  rw [hcand2, hcand]
  constructor
  · intro hp
    exact Or.inr ⟨List.mem_singleton.mp hp, hempty⟩
  · intro hp
    rcases hp with ⟨_, hfalse⟩ | ⟨hp, _⟩
    · rw [hnb] at hfalse
      exact absurd hfalse (by simp)
    · rw [hp]
      exact List.mem_singleton.mpr rfl

/-- Witness for C5: a fresh 3-by-3 solver, one `place_tiles` call and one
dictionary insertion, checked at the centre cell. -/
theorem claim_C5_anchor_invariant_witness :
    Solver.new 3 3 = Except.ok S33 ∧
    (((1, 1) : Pos) ∈
        (runOps S33 [SolverOp.place [⟨TileLetter.char 'a', 0, 0⟩],
          SolverOp.add ['a']]).candidates ↔
      (cellEmptyB (runOps S33 [SolverOp.place [⟨TileLetter.char 'a', 0, 0⟩],
          SolverOp.add ['a']]) (1, 1) = true ∧
        hasPlacedNeighbourB (runOps S33 [SolverOp.place [⟨TileLetter.char 'a', 0, 0⟩],
          SolverOp.add ['a']]) (1, 1) = true) ∨
      (((1, 1) : Pos) = (3 / 2, 3 / 2) ∧
        boardAllEmptyB (runOps S33 [SolverOp.place [⟨TileLetter.char 'a', 0, 0⟩],
          SolverOp.add ['a']]) = true)) :=
  ⟨rfl, claim_C5_anchor_invariant 3 3 S33
    [SolverOp.place [⟨TileLetter.char 'a', 0, 0⟩], SolverOp.add ['a']] rfl (1, 1)⟩

/-- Claim C4: after every (always successful) `place_tiles` call on a
reachable solver state, for every empty cell and direction whose cell
has a placed cross-neighbour, a letter is in the stored cross set iff it
completes a dictionary cross-word with the adjacent tiles.  The first
conjunct records why the iff holds: `place_tiles` has an empty body (and
`walk_tile`, the cross-set recomputation, is an unimplemented stub), so
the board never acquires a tile and no cell ever has a placed
cross-neighbour — the invariant is vacuously maintained. -/
theorem claim_C4_cross_invariant (rows cols : Nat) (s0 : Solver) (ops : List SolverOp)
    (ps : List TilePlacement) (h : Solver.new rows cols = Except.ok s0) :
    (∀ r c d, hasCrossNeighbourB ((runOps s0 ops).place_tiles ps) r c d = false) ∧
    (∀ r c d x, cellEmptyB ((runOps s0 ops).place_tiles ps) (r, c) = true →
      hasCrossNeighbourB ((runOps s0 ops).place_tiles ps) r c d = true →
      (x ∈ crossSetAt ((runOps s0 ops).place_tiles ps) r c d ↔
        crossWordFormedB ((runOps s0 ops).place_tiles ps) r c d x = true)) := by
  obtain ⟨hr, hc, hb, _, _, _, _⟩ := new_ok_fields h
  obtain ⟨hr2, hc2, hb2, _, _, _⟩ := runOps_state ops s0
  have hpt : (runOps s0 ops).place_tiles ps = runOps s0 ops := rfl
  rw [hpt]
  have hboard : (runOps s0 ops).board =
      List.replicate ((runOps s0 ops).rows * (runOps s0 ops).cols) none := by
    rw [hb2, hr2, hc2, hr, hc, hb]
  have htile := tileAt_replicate hboard
  have hno : ∀ r c d, hasCrossNeighbourB (runOps s0 ops) r c d = false := by
    intro r c d
    cases d <;> (unfold hasCrossNeighbourB; simp [htile])
  refine ⟨hno, ?_⟩
  intro r c d x _ h2
  rw [hno r c d] at h2
  exact absurd h2 (by simp)

/-- Witness for C4: a fresh 3-by-3 solver with a word added, after an
out-of-bounds `place_tiles` call, checked at the centre cell. -/
theorem claim_C4_cross_invariant_witness :
    Solver.new 3 3 = Except.ok S33 ∧
    hasCrossNeighbourB ((runOps S33 [SolverOp.add ['a']]).place_tiles
      [⟨TileLetter.char 'a', 5, 5⟩]) 1 1 Direction.LR = false :=
  ⟨rfl, (claim_C4_cross_invariant 3 3 S33 [SolverOp.add ['a']]
    [⟨TileLetter.char 'a', 5, 5⟩] rfl).1 1 1 Direction.LR⟩

/-- Claim C10: after a successful `Solver::new(rows, cols)`, every one of
the `rows*cols` cells is empty and carries the full alphabet in both
cross-set arrays, and the candidate anchor set is exactly the centre
singleton. -/
theorem claim_C10_fresh_state (rows cols : Nat) (s : Solver)
    (h : Solver.new rows cols = Except.ok s) :
    (∀ i, i < rows * cols →
      s.board.getD i (some (TileLetter.char 'a')) = none ∧
      s.crossLR.getD i [] = alphabet ∧ s.crossTD.getD i [] = alphabet) ∧
    s.candidates = [(rows / 2, cols / 2)] := by
  obtain ⟨_, _, hb, hl, ht, hcand, _⟩ := new_ok_fields h
  refine ⟨?_, hcand⟩
  intro i hi
  rw [hb, hl, ht]
  exact ⟨getD_replicate_of_lt _ _ hi, getD_replicate_of_lt _ _ hi,
    getD_replicate_of_lt _ _ hi⟩

/-- Witness for C10: the fresh 3-by-3 solver, cell 4 (the centre). -/
theorem claim_C10_fresh_state_witness :
    Solver.new 3 3 = Except.ok S33 ∧ S33.candidates = [(1, 1)] ∧
    S33.crossLR.getD 4 [] = alphabet ∧
    S33.board.getD 4 (some (TileLetter.char 'a')) = none :=
  ⟨rfl, (claim_C10_fresh_state 3 3 S33 rfl).2,
    ((claim_C10_fresh_state 3 3 S33 rfl).1 4 (by decide)).2.1,
    ((claim_C10_fresh_state 3 3 S33 rfl).1 4 (by decide)).1⟩

/-! ## Claims about move generation -/

/-- On the fresh 3-by-3 solver the left-right anchor scan starting from
the centre `(1, 1)` spins forever: `(0, 1)` is not a candidate, so the
loop body never decrements `row` and the state never changes. -/
theorem glmaLR_spin (fuel : Nat) : glmaLR [(1, 1)] fuel (1, 1) = none := by
  induction fuel with
  | zero => rfl
  | succ n ih =>
    have h : glmaLR [(1, 1)] (n + 1) (1, 1) =
        if ((0, 1) : Pos) ∈ [((1, 1) : Pos)] then glmaLR [(1, 1)] n (0, 1)
        else glmaLR [(1, 1)] n (1, 1) := rfl
    rw [h, if_neg (by decide)]
    exact ih

/-- Claim C2 (refuted — code bug): `generate_moves` does not terminate on
the fresh 3-by-3 solver, whatever the rack: the first candidate loop
iteration calls `get_left_most_anchor((1, 1), LR)`, whose `while` loop
never exits because its body decrements `row` only when `(row-1, col)`
is a candidate, and spins with unchanged state otherwise (the top-down
branch moreover tests `col` but decrements `row`).  In the fuel model
the run returns `none` for every fuel. -/
theorem claim_C2_nontermination (fuel : Nat) (rack : List RackLetter) :
    Solver.generate_moves S33 rack fuel = none := by
  have h := glmaLR_spin fuel
  simp only [Solver.generate_moves, S33, gmLoop, get_left_most_anchor, h]
  rfl

/-- Claim C1 (code evaluation at the failing input — code bug): on a
fresh 1-by-5 solver (the one odd-dimension shape on which
`generate_moves` terminates at all) with dictionary word `"ab"` and the
rack `[a, b]` equal to its letter multiset, `generate_moves` returns no
solution whatsoever, although the claim requires a solution spelling
`ab` through the centre `(0, 2)`. -/
theorem claim_C1_no_solution_eval :
    Solver.new 1 5 = Except.ok S15 ∧
    (Solver.generate_moves (S15.add_dictionary_word ['a', 'b'])
      [RackLetter.char 'a', RackLetter.char 'b'] 40).map (fun r => r.1) = some [] :=
  ⟨rfl, by decide⟩

/-- Claim C3 (code evaluation at the failing input — code bug):
`place_tiles` applied to an out-of-bounds placement returns normally and
leaves the solver untouched; its body is empty, so it can neither detect
`OutOfBounds`, `OccupiedCell` nor `DiscontiguousMove`, and it has no
error channel at all (the Rust signature returns unit). -/
theorem claim_C3_place_tiles_noop :
    Solver.place_tiles S33 [⟨TileLetter.char 'a', 100, 100⟩] = S33 := rfl

/-- Claim C6 (code evaluation at the failing input — code bug): with a
tile `b` at `(0, 0)` and the anchor at `(0, 1)`, the `Gen` step at
offset `-1` must consult the shifted cell `(0, 0)` (second conjunct) and
call `GoOn` with its tile; the code instead reads the board at the
unshifted anchor, sees an empty cell, and — the rack being empty —
returns with the walk state unchanged (first conjunct), never calling
`go_on`.  The third conjunct shows the `GoOn` call the claim mandates is
observable: it would at least prepend the placement of `b` at `(0,0)`. -/
theorem claim_C6_gen_reads_anchor :
    mgRun Sc6 0 1 Direction.LR 5 (MGCall.gen ⟨[], []⟩ (-1) [] Sc6.graph.init) =
      some ⟨[], []⟩ ∧
    Sc6.board.getD (Sc6.get_index 0 ((1 : Int) + (-1)).toNat) none =
      some (TileLetter.char 'b') ∧
    mgRun Sc6 0 1 Direction.LR 5
        (MGCall.goOn ⟨[], []⟩ (TileLetter.char 'b') (-1) [] Sc6.graph.init
          (lookupArc Sc6.graph.init.next (Kind.char 'b'))) =
      some ⟨[⟨TileLetter.char 'b', 0, 0⟩], []⟩ :=
  ⟨by decide, by decide, by decide⟩

/-- Claim C7 (code evaluation at the failing input — code bug): in the
`GoOn` step at the left board edge (anchor `(0, 0)`, offset 0, direction
left-right) with the played letter `a` contained in the old arc's letter
set (second conjunct — the arc is the one the one-letter dictionary word
`"a"` creates, first conjunct), the cell beyond the word is off the
board, so the claim requires the move to be recorded; the code demands
an on-board empty cell (`col > 0 && …`), so the returned state carries
the placement but an empty move list (third conjunct). -/
theorem claim_C7_edge_not_recorded :
    lookupArc (Graph.new.add_word ['a']).init.next (Kind.char 'a') =
      some (Arc.mk ['a'] []) ∧
    'a' ∈ Arc.letter_set (Arc.mk ['a'] []) ∧
    mgRun S11 0 0 Direction.LR 5
        (MGCall.goOn ⟨[], []⟩ (TileLetter.char 'a') 0 [] (Arc.mk ['a'] []) none) =
      some ⟨[⟨TileLetter.char 'a', 0, 0⟩], []⟩ :=
  ⟨rfl, by decide, by decide⟩

/-- Claim C9 (amended): `generate_moves` leaves the board, both cross-set
arrays and the word graph unchanged — the walk only reads the solver —
but it is not pure with respect to the candidate set, which
`generate_moves_in_dir` prunes by the cells of every generated
placement. -/
theorem claim_C9_frame (s : Solver) (letters : List RackLetter) (fuel : Nat)
    (out : List Solution × Solver)
    (h : Solver.generate_moves s letters fuel = some out) :
    out.2.board = s.board ∧ out.2.crossLR = s.crossLR ∧
    out.2.crossTD = s.crossTD ∧ out.2.graph = s.graph := by
  unfold Solver.generate_moves at h
  cases hg : gmLoop s fuel letters s.candidates ([], s.candidates) with
  | none =>
    rw [hg] at h
    exact Option.noConfusion h
  | some r =>
    rw [hg] at h
    have h2 : (r.1, ({ s with candidates := r.2 } : Solver)) = out := Option.some.inj h
    rw [← h2]
    exact ⟨rfl, rfl, rfl, rfl⟩

/-- Witness for C9: the fresh 1-by-1 solver with an empty rack, whose
`generate_moves` run returns normally and unchanged. -/
theorem claim_C9_frame_witness :
    Solver.generate_moves S11 [] 5 = some ([], S11) ∧
    S11.board = S11.board ∧ S11.crossLR = S11.crossLR ∧
    S11.crossTD = S11.crossTD ∧ S11.graph = S11.graph :=
  ⟨rfl, claim_C9_frame S11 [] 5 ([], S11) rfl⟩

/-- Counterexample for C9 as stated: with dictionary `{a, aa}` and rack
`[a, a]` on a fresh 1-by-5 solver, `generate_moves` returns with the
candidate set emptied — the centre `(0, 2)` has been removed — so the
anchor set is not preserved by move generation. -/
theorem claim_C9_counterexample :
    ((S15.add_dictionary_word ['a']).add_dictionary_word ['a', 'a']).candidates =
      [(0, 2)] ∧
    (Solver.generate_moves
        ((S15.add_dictionary_word ['a']).add_dictionary_word ['a', 'a'])
        [RackLetter.char 'a', RackLetter.char 'a'] 40).map (fun r => r.2.candidates) =
      some [] :=
  ⟨rfl, by decide⟩
